import Mathlib

/-!
Verification of the VQ-VAE and SG-VAE middle layers and their training-time
gradient assembly, from `vae/vq_vae_conv.py` and `vae/sg_vae_conv.py`.

Tensors are modelled as nested lists of rationals (batch-major).  The
TensorFlow value/gradient semantics relevant to these files is modelled with
dual numbers: every scalar graph node carries its value together with its
derivative with respect to one fixed scalar parameter of the graph.
`tf.stop_gradient` zeroes the derivative component, `tf.argmin` produces
integer indices through which no derivative flows, and `tf.gather` is
differentiable in the gathered table but treats the indices as constants.
-/

namespace VAE

/-- A dual number: the value of a graph node together with its derivative
with respect to a fixed scalar parameter of the graph. -/
structure D where
  val : ℚ
  der : ℚ
deriving DecidableEq, Repr

instance : Zero D := ⟨⟨0, 0⟩⟩

instance : Add D := ⟨fun a b => ⟨a.val + b.val, a.der + b.der⟩⟩

instance : Sub D := ⟨fun a b => ⟨a.val - b.val, a.der - b.der⟩⟩

instance : Mul D := ⟨fun a b => ⟨a.val * b.val, a.val * b.der + a.der * b.val⟩⟩

/-- A graph constant (a placeholder value or a Python scalar): derivative 0. -/
def constD (q : ℚ) : D := ⟨q, 0⟩

/-- Multiplication of a graph node by a Python-level constant coefficient. -/
def scaleD (c : ℚ) (x : D) : D := ⟨c * x.val, c * x.der⟩

/-- Model of `tf.stop_gradient`: identity on the value, zero derivative. -/
def stopGrad (x : D) : D := ⟨x.val, 0⟩

/-- Sum of a list of dual numbers. -/
def sumD : List D → D
  | [] => 0
  | x :: xs => x + sumD xs

/-- Model of `tf.reduce_mean` over a flat list of dual numbers. -/
def meanD (l : List D) : D := scaleD (1 / (l.length : ℚ)) (sumD l)

/-- Mean of a list of rationals (`tf.reduce_mean` on values). -/
def meanQ (l : List ℚ) : ℚ := l.sum / l.length

/-- Values of a vector of dual numbers. -/
def vals1 (v : List D) : List ℚ := v.map D.val

/-- Lift a constant vector into dual numbers. -/
def const1 (v : List ℚ) : List D := v.map constD

/-- Lift a constant matrix into dual numbers. -/
def const2 (m : List (List ℚ)) : List (List D) := m.map const1

/-- Lift a constant rank-3 tensor into dual numbers. -/
def const3 (t : List (List (List ℚ))) : List (List (List D)) := t.map const2

/-- Values of a rank-3 tensor of dual numbers. -/
def vals3 (t : List (List (List D))) : List (List (List ℚ)) :=
  t.map (fun m => m.map vals1)

/-- Elementwise subtraction of two vectors of dual numbers. -/
def vsub (u v : List D) : List D := List.zipWith (fun a b => a - b) u v

/-- Elementwise addition of two vectors of dual numbers. -/
def vadd (u v : List D) : List D := List.zipWith (fun a b => a + b) u v

/-- `tf.stop_gradient` applied elementwise to a vector. -/
def stopGradV (v : List D) : List D := v.map stopGrad

/-- Squared Euclidean norm of a vector of dual numbers: this is the value and
derivative of `tf.norm(v, axis=-1) ** 2` wherever the norm is nonzero. -/
def normSqD (v : List D) : D := sumD (v.map (fun x => x * x))

/-- Squared Euclidean distance between two rational vectors.  `tf.argmin`
over the Euclidean norms `tf.norm(diff, axis=3)` selects the same index as
the arg-min over these squared norms, because the square root is strictly
monotone on nonnegative reals. -/
def sqDist (u v : List ℚ) : ℚ := (List.zipWith (fun a b => (a - b) ^ 2) u v).sum

/-- Index of the first (lowest-index) minimum of a list, 0 on the empty
list: the tie-breaking behaviour of `tf.argmin`. -/
def argminIdx : List ℚ → ℕ
  | [] => 0
  | [_] => 0
  | x :: y :: ys =>
    if x ≤ (y :: ys).getD (argminIdx (y :: ys)) 0 then 0 else argminIdx (y :: ys) + 1

/-- Index of the first (lowest-index) maximum of a list, 0 on the empty
list: the tie-breaking behaviour of `tf.argmax`. -/
def argmaxIdx : List ℚ → ℕ
  | [] => 0
  | [_] => 0
  | x :: y :: ys =>
    if (y :: ys).getD (argmaxIdx (y :: ys)) 0 ≤ x then 0 else argmaxIdx (y :: ys) + 1

/-- One-hot vector of length `n` with a 1 at position `k` (`tf.one_hot`
followed by the cast to float). -/
def oneHot (k n : ℕ) : List ℚ := (List.range n).map (fun i => if i = k then 1 else 0)

/-- VQ_VAE.build_middle, lines 212-214: the assignment index of one predicted
embedding `p` is the arg-min over the codebook of the Euclidean distance
(`embedding_difference`, `tf.norm(axis=3)`, `tf.argmin(axis=2)`). -/
def vqClassOf (embeds : List (List ℚ)) (p : List ℚ) : ℕ :=
  argminIdx (embeds.map (fun e => sqDist p e))

/-- VQ_VAE.build_middle: the `(batch, latent_size)` tensor of assignment
indices, one per sample and code slot. -/
def vqClasses (pred : List (List (List ℚ))) (embeds : List (List ℚ)) :
    List (List ℕ) :=
  pred.map (fun sample => sample.map (fun p => vqClassOf embeds p))

/-- `tf.gather(embeds, classes)` (line 216): look up one codebook row per
sample and slot; the indices are integer tensors, so no derivative flows
through them. -/
def gather {α : Type} (embeds : List (List α)) (classes : List (List ℕ)) :
    List (List (List α)) :=
  classes.map (fun row => row.map (fun c => embeds.getD c []))

/-- `tf.reshape(collected, (-1, latent_size * embedding_size))` (lines
217-219): concatenate the per-slot vectors of each sample. -/
def flatten2 {α : Type} (t : List (List (List α))) : List (List α) :=
  t.map List.flatten

/-- VQ_VAE.build_training, lines 279-281:
`left_loss = reduce_mean(norm(stop_gradient(pred_embeds) - collected_embeds, axis=2) ** 2)`. -/
def leftLoss (pred coll : List (List (List D))) : D :=
  meanD (((pred.zip coll).map (fun pc =>
    (pc.1.zip pc.2).map (fun qc => normSqD (vsub (stopGradV qc.1) qc.2)))).flatten)

/-- VQ_VAE.build_training, lines 283-285:
`right_loss = reduce_mean(norm(pred_embeds - stop_gradient(collected_embeds), axis=2) ** 2)`. -/
def rightLoss (pred coll : List (List (List D))) : D :=
  meanD (((pred.zip coll).map (fun pc =>
    (pc.1.zip pc.2).map (fun qc => normSqD (vsub qc.1 (stopGradV qc.2))))).flatten)

/-- VQ_VAE.build_training, lines 273-277, L2 branch: the reconstruction loss
is the per-sample mean of squared errors, averaged over the batch; the input
placeholder is a graph constant. -/
def outputLossL2 (inputFlat : List (List ℚ)) (flatLogits : List (List D)) : D :=
  meanD ((inputFlat.zip flatLogits).map (fun r =>
    meanD ((r.1.zip r.2).map (fun q => (constD q.1 - q.2) * (constD q.1 - q.2)))))

/-- One VQ-VAE training graph: the concrete input batch and parameter values
together with the encoder, decoder and regulariser maps.  Encoder and
decoder trainable variables are lists of scalars; `encF` produces
`pred_embeds` from the encoder variables, `decF` produces the flat logits
from the decoder variables and the flattened collected embeddings, and
`regF` is the regularisation loss. -/
structure VQPipe where
  inputFlat : List (List ℚ)
  encParams : List ℚ
  decParams : List ℚ
  embeds : List (List ℚ)
  encF : List D → List (List (List D))
  decF : List D → List (List D) → List (List D)
  regF : List D → List D → D
  beta1 : ℚ
  beta2 : ℚ

/-- A parameter vector as graph constants (derivative 0 everywhere). -/
def constVec (qs : List ℚ) : List D := qs.map constD

/-- A parameter vector with the derivative seed placed on entry `i`:
differentiation with respect to the `i`-th scalar variable. -/
def seedVec : List ℚ → ℕ → List D
  | [], _ => []
  | q :: qs, 0 => ⟨q, 1⟩ :: const1 qs
  | q :: qs, i + 1 => constD q :: seedVec qs i

/-- The codebook with the derivative seed on entry `(k, c)`: differentiation
with respect to one scalar component of the `embeddings` variable. -/
def seedEmbeds : List (List ℚ) → ℕ → ℕ → List (List D)
  | [], _, _ => []
  | r :: rs, 0, c => seedVec r c :: const2 rs
  | r :: rs, k + 1, c => const1 r :: seedEmbeds rs k c

/-- A rank-3 tensor of graph inputs with the derivative seed on entry
`(b, l, e)`: used to read off `tf.gradients` with respect to one component
of an intermediate tensor. -/
def seed3 : List (List (List ℚ)) → ℕ → ℕ → ℕ → List (List (List D))
  | [], _, _, _ => []
  | m :: ms, 0, l, e => seedEmbeds m l e :: const3 ms
  | m :: ms, b + 1, l, e => const2 m :: seed3 ms b l e

/-- The assignment indices of the graph: computed from the current values of
`pred_embeds` and the codebook; `tf.argmin` returns integers, so the indices
are the same however the derivative seed is placed. -/
def pipeClasses (P : VQPipe) : List (List ℕ) :=
  vqClasses (vals3 (P.encF (constVec P.encParams))) P.embeds

/-- VQ_VAE.build_training, lines 294-295: the reported scalar
`loss_t = output_loss + beta1 * left_loss + beta2 * right_loss + reg_loss`,
evaluated with the given seeding of encoder, decoder and codebook variables. -/
def pipeLossT (P : VQPipe) (encD decD : List D) (embD : List (List D)) : D :=
  outputLossL2 P.inputFlat (P.decF decD (flatten2 (gather embD (pipeClasses P))))
    + scaleD P.beta1 (leftLoss (P.encF encD) (gather embD (pipeClasses P)))
    + scaleD P.beta2 (rightLoss (P.encF encD) (gather embD (pipeClasses P)))
    + P.regF encD decD

/-- Line 307-308: `decoder_grads = zip(tf.gradients(loss_t, decoder_vars), decoder_vars)`. -/
def decoderGrads (P : VQPipe) : List ℚ :=
  (List.range P.decParams.length).map (fun j =>
    (pipeLossT P (constVec P.encParams) (seedVec P.decParams j) (const2 P.embeds)).der)

/-- The reconstruction loss as a function of the collected embeddings alone
(decoder variables held constant): the loss surface used for `grad_z`. -/
def outputLossOfColl (P : VQPipe) (collD : List (List (List D))) : D :=
  outputLossL2 P.inputFlat (P.decF (constVec P.decParams) (flatten2 collD))

/-- Line 311: `grad_z = tf.gradients(output_loss, collected_embeds)`, read
off component by component. -/
def gradZ (P : VQPipe) (b l e : ℕ) : ℚ :=
  (outputLossOfColl P (seed3 (gather P.embeds (pipeClasses P)) b l e)).der

/-- Sum of an index-dependent function over a list (used to contract
`grad_z` against the Jacobian of `pred_embeds`). -/
def sumIdx {α : Type} (f : ℕ → α → ℚ) : List α → ℚ
  | [] => 0
  | x :: xs => f 0 x + sumIdx (fun i v => f (i + 1) v) xs

/-- Lines 312-314, first summand: the vector-Jacobian product
`tf.gradients(pred_embeds, var, grad_z)` routing the reconstruction
gradient at the quantized vectors onto the predicted vectors. -/
def vjp (P : VQPipe) (i : ℕ) : ℚ :=
  sumIdx (fun b m =>
    sumIdx (fun l v =>
      sumIdx (fun e x => gradZ P b l e * x.der) v) m)
    (P.encF (seedVec P.encParams i))

/-- Lines 312-314: `encoder_grads = [(tf.gradients(pred_embeds, var, grad_z)[0]
+ beta2 * tf.gradients(right_loss, var)[0], var) for var in encoder_vars]`. -/
def encoderGrads (P : VQPipe) : List ℚ :=
  (List.range P.encParams.length).map (fun i =>
    vjp P i
      + P.beta2 * (rightLoss (P.encF (seedVec P.encParams i))
          (gather (const2 P.embeds) (pipeClasses P))).der)

/-- Line 316: `embed_grads = zip(tf.gradients(left_loss, embeds), [embeds])`,
one scalar gradient per codebook component, from `left_loss` only. -/
def embedGrads (P : VQPipe) : List ℚ :=
  ((List.range P.embeds.length).map (fun k =>
    (List.range ((P.embeds.getD k []).length)).map (fun c =>
      (leftLoss (P.encF (constVec P.encParams))
        (gather (seedEmbeds P.embeds k c) (pipeClasses P))).der))).flatten

/-- Lines 318-320: the single `apply_gradients` call receives the
concatenation `decoder_grads + encoder_grads + embed_grads`. -/
def appliedGrads (P : VQPipe) : List ℚ :=
  decoderGrads P ++ encoderGrads P ++ embedGrads P

/-- The gradient of the reported scalar `loss_t` with respect to every
variable, in the same variable order: what a direct
`optimizer.minimize(loss_t)` would apply instead. -/
def lossTGrads (P : VQPipe) : List ℚ :=
  ((List.range P.decParams.length).map (fun j =>
      (pipeLossT P (constVec P.encParams) (seedVec P.decParams j) (const2 P.embeds)).der))
    ++ ((List.range P.encParams.length).map (fun i =>
      (pipeLossT P (seedVec P.encParams i) (constVec P.decParams) (const2 P.embeds)).der))
    ++ ((List.range P.embeds.length).map (fun k =>
      (List.range ((P.embeds.getD k []).length)).map (fun c =>
        (pipeLossT P (constVec P.encParams) (constVec P.decParams)
          (seedEmbeds P.embeds k c)).der))).flatten

/-- The gradient of `output_loss` with respect to the codebook component
`(k, c)`: the path through `tf.gather` into the decoder is differentiable in
the codebook, since no `tf.stop_gradient` is placed on `collected_embeds`
before the decoder. -/
def outputLossGradEmbed (P : VQPipe) (k c : ℕ) : ℚ :=
  (outputLossOfColl P (gather (seedEmbeds P.embeds k c) (pipeClasses P))).der

/-- A concrete one-parameter VQ-VAE graph: one input pixel of value 1, a
linear one-variable encoder, an identity decoder with no trainable
variables, a single one-dimensional codebook entry of value 0, zero
regularisation, and `beta1 = beta2 = 1`. -/
def exPipe : VQPipe where
  inputFlat := [[1]]
  encParams := [1]
  decParams := []
  embeds := [[0]]
  encF := fun v => [[[v.getD 0 (constD 0)]]]
  decF := fun _ flat => flat
  regF := fun _ _ => constD 0
  beta1 := 1
  beta2 := 1

/-- SG_VAE.KLType (sg_vae_conv.py lines 19-21). -/
inductive KLType where
  | CATEGORICAL
  | RELAXED
deriving DecidableEq, Repr

/-- SG_VAE.LossType (sg_vae_conv.py lines 15-17). -/
inductive SGLossType where
  | SIGMOID_CROSS_ENTROPY
  | L2
deriving DecidableEq, Repr

/-- VQ_VAE.LossType (vq_vae_conv.py lines 19-23). -/
inductive VQLossType where
  | SIGMOID_CROSS_ENTROPY
  | L2
  | L2_WITH_SIGMOID
deriving DecidableEq, Repr

/-- A dynamically-typed Python argument as far as the constructor contracts
can observe it: a member of one of the three enumerations, or any other
value. -/
inductive PyArg where
  | sgLoss (v : SGLossType)
  | vqLoss (v : VQLossType)
  | kl (v : KLType)
  | other
deriving DecidableEq, Repr

/-- Python `loss_type in SG_VAE.LossType`: true exactly on members of that
enumeration. -/
def isSGLossType : PyArg → Bool
  | .sgLoss _ => true
  | _ => false

/-- Python `loss_type in VQ_VAE.LossType`: true exactly on members of that
enumeration. -/
def isVQLossType : PyArg → Bool
  | .vqLoss _ => true
  | _ => false

/-- SG_VAE.__init__, lines 30-32: the complete set of construction-time
checks — `assert loss_type in self.LossType` and the two chained
length-equality asserts.  The `kl_type` argument is stored (line 50)
without any validation. -/
def sgInitChecks (loss_type : PyArg) (ef efs es df dfs ds : List ℤ)
    (kl_type : PyArg) : Bool :=
  isSGLossType loss_type
    && (ef.length == efs.length) && (efs.length == es.length)
    && (df.length == dfs.length) && (dfs.length == ds.length)

/-- VQ_VAE.__init__, lines 32-34: the complete set of construction-time
checks. -/
def vqInitChecks (loss_type : PyArg) (ef efs es df dfs ds : List ℤ) : Bool :=
  isVQLossType loss_type
    && (ef.length == efs.length) && (efs.length == es.length)
    && (df.length == dfs.length) && (dfs.length == ds.length)

/-- Python `self.kl_type == self.KLType.CATEGORICAL`: enum equality against
an arbitrary stored value; any non-member simply compares unequal. -/
def pyEqCategorical : PyArg → Bool
  | .kl KLType.CATEGORICAL => true
  | _ => false

/-- SG_VAE.build_middle, line 226: the KL-branch condition
`self.kl_type == self.KLType.CATEGORICAL or self.straight_through`. -/
def klBranchIsCategorical (kl_type : PyArg) (straight_through : Bool) : Bool :=
  pyEqCategorical kl_type || straight_through

/-- Elementwise subtraction of two rational matrices. -/
def matSub (a b : List (List ℚ)) : List (List ℚ) :=
  List.zipWith (fun r s => List.zipWith (fun x y => x - y) r s) a b

/-- SG_VAE.build_middle, lines 224-233: the per-(sample, distribution) KL
tensor.  The closed-form categorical KL against the uniform prior and the
relaxed log-densities are computed by the framework's distribution objects,
passed here as `catKL`, `sgLogProb` and `priorSgLogProb`; the branch taken
is decided at graph-construction time from `kl_type` and
`straight_through`, and the relaxed estimator evaluates both log-densities
at the one sampled point `sgSample`. -/
def klDivergenceT (straight_through : Bool) (kl_type : KLType)
    (catKL : List (List ℚ))
    (sgLogProb priorSgLogProb : List (List (List ℚ)) → List (List ℚ))
    (sgSample : List (List (List ℚ))) : List (List ℚ) :=
  if kl_type = KLType.CATEGORICAL ∨ straight_through then catKL
  else matSub (sgLogProb sgSample) (priorSgLogProb sgSample)

/-- SG_VAE.build_training, line 295:
`kl_loss = reduce_mean(reduce_sum(kl_divergence, axis=1))`. -/
def klLossT (kl : List (List ℚ)) : ℚ := meanQ (kl.map List.sum)

/-- SG_VAE.build_middle, lines 212-213, on one `(sample, distribution)`
slice: `hard = one_hot(argmax(sg_sample, -1)); sg_sample =
stop_gradient(hard - sg_sample) + sg_sample`. -/
def stHarden (y : List D) : List D :=
  vadd (stopGradV (vsub (const1 (oneHot (argmaxIdx (vals1 y)) y.length)) y)) y

/-- The straight-through hardening applied across the batch and the
`num_distributions` axis. -/
def stBatch (s : List (List (List D))) : List (List (List D)) :=
  s.map (fun m => m.map stHarden)

/-- The forward value of the sample produced by lines 209-213: the relaxed
sample itself, or its straight-through hardening when the flag is set. -/
def sgSampleWithST (straight_through : Bool) (sg : List (List (List ℚ))) :
    List (List (List ℚ)) :=
  if straight_through then vals3 (stBatch (const3 sg)) else sg

/-- SG_VAE.build_middle, lines 206-235, at the level of sample values: both
the (optionally straight-through) relaxed sample and the hard categorical
sample are built unconditionally from the same logits; `tf.where` on the
runtime boolean `is_training_pl` (line 235) selects which reshaped sample
is returned to feed the decoder.  The two framework samplers are passed as
functions of the temperature (relaxed only), the logits and an explicit
source of randomness. -/
def sgMiddleSelectedSample {ρ : Type} (straight_through : Bool)
    (relaxedSampler : ℚ → List (List (List ℚ)) → ρ → List (List (List ℚ)))
    (catSampler : List (List (List ℚ)) → ρ → List (List (List ℚ)))
    (logits : List (List (List ℚ))) (temperature : ℚ) (rand : ρ)
    (isTraining : Bool) : List (List ℚ) :=
  if isTraining then flatten2 (sgSampleWithST straight_through (relaxedSampler temperature logits rand))
  else flatten2 (catSampler logits rand)

/-- SG_VAE.encode, lines 84-88: one `session.run(sample_t)` of the middle
layer with `is_training_pl: False` and some value fed for the temperature
placeholder; `logitsF` is the deterministic encoder-plus-projection that
produces the logits from the input batch. -/
def sgEncodeRun {ι ρ : Type} (straight_through : Bool)
    (relaxedSampler : ℚ → List (List (List ℚ)) → ρ → List (List (List ℚ)))
    (catSampler : List (List (List ℚ)) → ρ → List (List (List ℚ)))
    (logitsF : ι → List (List (List ℚ))) (inputs : ι) (rand : ρ)
    (temperature : ℚ) : List (List ℚ) :=
  sgMiddleSelectedSample straight_through relaxedSampler catSampler
    (logitsF inputs) temperature rand false

/-- An all-zero `(batch, latent_size, embedding_size)` tensor: the
`np.zeros` fed for `pred_embeds` by VQ_VAE.decode and VQ_VAE.predict. -/
def zeros3 (b l e : ℕ) : List (List (List ℚ)) :=
  List.replicate b (List.replicate l (List.replicate e 0))

/-- The value of `output_t` when `classes` and `pred_embeds` are fed:
feeding `classes` overrides the arg-min, so the output is
`decF(reshape(gather(embeds, classes)))` (lines 216-219 and the decoder);
the fed `pred_embeds` tensor is not on the path to `output_t`.  `decF`
covers the decoder stack, the output nonlinearity and the final
`[:, :, :, 0]` slice. -/
def vqOutputGivenFeeds (embeds : List (List ℚ))
    (decF : List (List ℚ) → List (List ℚ)) (classes : List (List ℕ))
    (predEmbedsFeed : List (List (List ℚ))) : List (List ℚ) :=
  decF (flatten2 (gather embeds classes))

/-- VQ_VAE.decode, lines 93-100: run `output_t` feeding the given classes
and an all-zero `pred_embeds` of shape `(len(classes), latent_size,
embedding_size)`. -/
def vqDecode (embeds : List (List ℚ)) (decF : List (List ℚ) → List (List ℚ))
    (latent emb : ℕ) (classes : List (List ℕ)) : List (List ℚ) :=
  vqOutputGivenFeeds embeds decF classes (zeros3 classes.length latent emb)

/-- VQ_VAE.predict, lines 102-111: sample uniform random classes (supplied
here as the argument `classes`), run `output_t` with the same feeds as
`decode`, and return the outputs together with the sampled classes. -/
def vqPredictOut (embeds : List (List ℚ)) (decF : List (List ℚ) → List (List ℚ))
    (latent emb : ℕ) (classes : List (List ℕ)) :
    List (List ℚ) × List (List ℕ) :=
  (vqOutputGivenFeeds embeds decF classes (zeros3 classes.length latent emb), classes)

/-- One `session.run(self.classes)` on a batch of inputs (VQ_VAE.encode,
lines 83-85): the encoder produces each sample's predicted embeddings
independently (`encOne`), and the middle layer assigns classes per sample
and slot. -/
def vqRunClasses {α : Type} (embeds : List (List ℚ))
    (encOne : α → List (List ℚ)) (xs : List α) : List (List ℕ) :=
  vqClasses (xs.map encOne) embeds

/-- VQ_VAE.encode, lines 74-91: `num_steps = ceil(n / batch_size)` slices
`inputs[i*bs:(i+1)*bs]`, one graph run per slice, then `np.concatenate`,
which raises (modelled as `none`) when the list of per-step results is
empty. -/
def vqEncode {α : Type} (embeds : List (List ℚ)) (encOne : α → List (List ℚ))
    (inputs : List α) (bs : ℕ) : Option (List (List ℕ)) :=
  if (inputs.length + bs - 1) / bs = 0 then none
  else some (((List.range ((inputs.length + bs - 1) / bs)).map (fun i =>
    vqRunClasses embeds encOne ((inputs.drop (i * bs)).take bs))).flatten)

@[simp] theorem addD_val (a b : D) : (a + b).val = a.val + b.val := rfl

@[simp] theorem addD_der (a b : D) : (a + b).der = a.der + b.der := rfl

@[simp] theorem subD_val (a b : D) : (a - b).val = a.val - b.val := rfl

@[simp] theorem subD_der (a b : D) : (a - b).der = a.der - b.der := rfl

@[simp] theorem mulD_val (a b : D) : (a * b).val = a.val * b.val := rfl

@[simp] theorem mulD_der (a b : D) : (a * b).der = a.val * b.der + a.der * b.val := rfl

@[simp] theorem constD_val (q : ℚ) : (constD q).val = q := rfl

@[simp] theorem constD_der (q : ℚ) : (constD q).der = 0 := rfl

@[simp] theorem scaleD_val (c : ℚ) (x : D) : (scaleD c x).val = c * x.val := rfl

@[simp] theorem scaleD_der (c : ℚ) (x : D) : (scaleD c x).der = c * x.der := rfl

@[simp] theorem stopGrad_val (x : D) : (stopGrad x).val = x.val := rfl

@[simp] theorem stopGrad_der (x : D) : (stopGrad x).der = 0 := rfl

@[simp] theorem zeroD_val : (0 : D).val = 0 := rfl

@[simp] theorem zeroD_der : (0 : D).der = 0 := rfl

theorem mem_zipWith {α β γ : Type} {f : α → β → γ} {l1 : List α} {l2 : List β}
    {x : γ} (h : x ∈ List.zipWith f l1 l2) : ∃ a ∈ l1, ∃ b ∈ l2, x = f a b := by
  induction l1 generalizing l2 with
  | nil => simp at h
  | cons a as ih =>
    cases l2 with
    | nil => simp at h
    | cons b bs =>
      simp only [List.zipWith_cons_cons, List.mem_cons] at h
      rcases h with h | h
      · exact ⟨a, by simp, b, by simp, h⟩
      · obtain ⟨a2, ha, b2, hb, hx⟩ := ih h
        exact ⟨a2, by simp [ha], b2, by simp [hb], hx⟩

theorem sumD_der_zero {l : List D} (h : ∀ x ∈ l, x.der = 0) : (sumD l).der = 0 := by
  induction l with
  | nil => rfl
  | cons x xs ih =>
    have hx := h x (by simp)
    have hxs := ih (fun y hy => h y (by simp [hy]))
    simp [sumD, hx, hxs]

theorem meanD_der_zero {l : List D} (h : ∀ x ∈ l, x.der = 0) : (meanD l).der = 0 := by
  simp [meanD, sumD_der_zero h]

theorem normSqD_der_zero {v : List D} (h : ∀ x ∈ v, x.der = 0) :
    (normSqD v).der = 0 := by
  refine sumD_der_zero ?_
  intro y hy
  obtain ⟨x, hx, rfl⟩ := List.mem_map.mp hy
  simp [h x hx]

theorem getD_mem_or {α : Type} (l : List (List α)) (c : ℕ) :
    l.getD c [] ∈ l ∨ l.getD c [] = [] := by
  by_cases h : c < l.length
  · left
    rw [List.getD_eq_getElem _ _ h]
    exact List.getElem_mem h
  · right
    exact List.getD_eq_default _ _ (le_of_not_lt h)

theorem getD_map {α β : Type} (f : α → β) (l : List α) (n : ℕ)
    (hn : n < l.length) (d : α) (d2 : β) :
    (l.map f).getD n d2 = f (l.getD n d) := by
  rw [List.getD_eq_getElem _ _ (by simpa using hn), List.getD_eq_getElem _ _ hn,
    List.getElem_map]

theorem argminIdx_spec (l : List ℚ) (hl : l ≠ []) :
    argminIdx l < l.length
      ∧ (∀ j, j < l.length → l.getD (argminIdx l) 0 ≤ l.getD j 0)
      ∧ (∀ j, j < argminIdx l → l.getD (argminIdx l) 0 < l.getD j 0) := by
  induction l with
  | nil => exact absurd rfl hl
  | cons x xs ih =>
    cases xs with
    | nil =>
      refine ⟨by simp [argminIdx], ?_, ?_⟩
      · intro j hj
        have hj0 : j = 0 := by simpa using hj
        subst hj0
        simp [argminIdx]
      · intro j hj
        simp [argminIdx] at hj
    | cons y ys =>
      obtain ⟨hlt, hmin, hfirst⟩ := ih (by simp)
      by_cases hx : x ≤ (y :: ys).getD (argminIdx (y :: ys)) 0
      · have ha : argminIdx (x :: y :: ys) = 0 := by
          simp only [argminIdx]
          rw [if_pos hx]
        rw [ha]
        refine ⟨by simp, ?_, ?_⟩
        · intro j hj
          cases j with
          | zero => simp
          | succ k =>
            rw [List.getD_cons_zero, List.getD_cons_succ]
            exact le_trans hx (hmin k (by simpa using hj))
        · intro j hj
          omega
      · have ha : argminIdx (x :: y :: ys) = argminIdx (y :: ys) + 1 := by
          simp only [argminIdx]
          rw [if_neg hx]
        rw [ha]
        refine ⟨by simpa using hlt, ?_, ?_⟩
        · intro j hj
          rw [List.getD_cons_succ]
          cases j with
          | zero => exact le_of_lt (by simpa using not_le.mp hx)
          | succ k =>
            rw [List.getD_cons_succ]
            exact hmin k (by simpa using hj)
        · intro j hj
          rw [List.getD_cons_succ]
          cases j with
          | zero => exact (by simpa using not_le.mp hx)
          | succ k =>
            rw [List.getD_cons_succ]
            exact hfirst k (by omega)

/-- C1: for every batch of predicted embeddings and every (nonempty)
codebook, each assignment index produced by the VQ-VAE middle layer lies in
`[0, num_embeddings)` and minimizes the (squared and hence also unsquared)
Euclidean distance from the predicted embedding to the codebook rows, with
ties resolved to the lowest index; and the gathered output is exactly the
codebook row at the assignment, for every sample and slot. -/
theorem vq_argmin_nearest_assignment (embeds : List (List ℚ)) :
    (∀ p : List ℚ, embeds ≠ [] →
      vqClassOf embeds p < embeds.length
        ∧ (∀ j, j < embeds.length →
            sqDist p (embeds.getD (vqClassOf embeds p) []) ≤ sqDist p (embeds.getD j []))
        ∧ (∀ j, j < vqClassOf embeds p →
            sqDist p (embeds.getD (vqClassOf embeds p) []) < sqDist p (embeds.getD j []))
        ∧ (∀ j, j < embeds.length →
            Real.sqrt ((sqDist p (embeds.getD (vqClassOf embeds p) []) : ℚ) : ℝ)
              ≤ Real.sqrt ((sqDist p (embeds.getD j []) : ℚ) : ℝ)))
      ∧ (∀ pred : List (List (List ℚ)),
          gather embeds (vqClasses pred embeds)
            = pred.map (fun s => s.map (fun p => embeds.getD (vqClassOf embeds p) []))) := by
  constructor
  · intro p hne
    simp only [vqClassOf]
    have hmap : (embeds.map (fun e => sqDist p e)) ≠ [] := by
      simpa using hne
    obtain ⟨hlt, hmin, hfirst⟩ := argminIdx_spec _ hmap
    rw [List.length_map] at hlt
    have hgd : ∀ j, j < embeds.length →
        (embeds.map (fun e => sqDist p e)).getD j 0 = sqDist p (embeds.getD j []) := by
      intro j hj
      exact getD_map _ _ _ hj [] 0
    have hle : ∀ j, j < embeds.length →
        sqDist p (embeds.getD (argminIdx (embeds.map (fun e => sqDist p e))) [])
          ≤ sqDist p (embeds.getD j []) := by
      intro j hj
      have := hmin j (by simpa using hj)
      rwa [hgd _ hlt, hgd _ hj] at this
    refine ⟨hlt, hle, ?_, ?_⟩
    · intro j hj
      have hjlt : j < embeds.length := lt_trans hj hlt
      have := hfirst j hj
      rwa [hgd _ hlt, hgd _ hjlt] at this
    · intro j hj
      exact Real.sqrt_le_sqrt (by exact_mod_cast hle j hj)
  · intro pred
    simp [gather, vqClasses, List.map_map]

/-- Witness for C1 at a concrete input: codebook `[[1], [0]]`, predicted
embedding `[0]`; the assignment is index 1 and its distance is no larger
than the distance to row 0. -/
theorem vq_argmin_nearest_assignment_witness :
    ([[1], [0]] : List (List ℚ)) ≠ []
      ∧ sqDist [0] (([[1], [0]] : List (List ℚ)).getD (vqClassOf [[1], [0]] [0]) [])
          ≤ sqDist [0] (([[1], [0]] : List (List ℚ)).getD 0 []) :=
  ⟨by decide,
    ((vq_argmin_nearest_assignment [[1], [0]]).1 [0] (by decide)).2.1 0 (by decide)⟩

theorem leftLoss_der_of_constColl (pred coll : List (List (List D)))
    (h : ∀ r ∈ coll, ∀ v ∈ r, ∀ x ∈ v, x.der = 0) : (leftLoss pred coll).der = 0 := by
  refine meanD_der_zero ?_
  intro t ht
  rw [List.mem_flatten] at ht
  obtain ⟨row, hrow, htr⟩ := ht
  obtain ⟨pc, hpc, rfl⟩ := List.mem_map.mp hrow
  obtain ⟨qc, hqc, rfl⟩ := List.mem_map.mp htr
  refine normSqD_der_zero ?_
  intro x hx
  obtain ⟨a, ha, b, hb, rfl⟩ := mem_zipWith hx
  obtain ⟨y, _, rfl⟩ := List.mem_map.mp ha
  have hcoll : pc.2 ∈ coll := (List.of_mem_zip hpc).2
  have hvec : qc.2 ∈ pc.2 := (List.of_mem_zip hqc).2
  simp [h pc.2 hcoll qc.2 hvec b hb]

theorem rightLoss_der_of_constPred (pred coll : List (List (List D)))
    (h : ∀ r ∈ pred, ∀ v ∈ r, ∀ x ∈ v, x.der = 0) : (rightLoss pred coll).der = 0 := by
  refine meanD_der_zero ?_
  intro t ht
  rw [List.mem_flatten] at ht
  obtain ⟨row, hrow, htr⟩ := ht
  obtain ⟨pc, hpc, rfl⟩ := List.mem_map.mp hrow
  obtain ⟨qc, hqc, rfl⟩ := List.mem_map.mp htr
  refine normSqD_der_zero ?_
  intro x hx
  obtain ⟨a, ha, b, hb, rfl⟩ := mem_zipWith hx
  obtain ⟨y, _, rfl⟩ := List.mem_map.mp hb
  have hpred : pc.1 ∈ pred := (List.of_mem_zip hpc).1
  have hvec : qc.1 ∈ pc.1 := (List.of_mem_zip hqc).1
  simp [h pc.1 hpred qc.1 hvec a ha]

theorem gather_const2_der_zero (em : List (List ℚ)) (classes : List (List ℕ)) :
    ∀ r ∈ gather (const2 em) classes, ∀ v ∈ r, ∀ x ∈ v, x.der = 0 := by
  intro r hr v hv x hx
  obtain ⟨row, _, rfl⟩ := List.mem_map.mp hr
  obtain ⟨c, _, rfl⟩ := List.mem_map.mp hv
  rcases getD_mem_or (const2 em) c with hm | he
  · obtain ⟨w, _, heq⟩ := List.mem_map.mp hm
    rw [← heq] at hx
    obtain ⟨q, _, rfl⟩ := List.mem_map.mp hx
    rfl
  · rw [he] at hx
    simp at hx

/-- C2: the reported scalar `loss_t` is
`output_loss + beta1 * left_loss + beta2 * right_loss + reg_loss`, and the
single optimizer step applies the concatenation of the three hand-assembled
gradient groups (decoder gradients from the total loss, encoder gradients
from the routed reconstruction gradient plus `beta2` times the commitment
gradient, codebook gradients from `left_loss` alone) in one
`apply_gradients` call; on a concrete graph this applied gradient list
differs from the gradient of the reported scalar over the same variables,
so the step does not minimize `loss_t` directly. -/
theorem vq_training_applies_custom_gradients :
    (∀ (P : VQPipe) (encD decD : List D) (embD : List (List D)),
      (pipeLossT P encD decD embD).val
        = (outputLossL2 P.inputFlat (P.decF decD (flatten2 (gather embD (pipeClasses P))))).val
          + P.beta1 * (leftLoss (P.encF encD) (gather embD (pipeClasses P))).val
          + P.beta2 * (rightLoss (P.encF encD) (gather embD (pipeClasses P))).val
          + (P.regF encD decD).val)
      ∧ (∀ P : VQPipe, appliedGrads P = decoderGrads P ++ encoderGrads P ++ embedGrads P)
      ∧ appliedGrads exPipe ≠ lossTGrads exPipe := by
  refine ⟨?_, fun _ => rfl, ?_⟩
  · intro P encD decD embD
    simp [pipeLossT]
  · have h1 : appliedGrads exPipe = [0, -2] := by
      norm_num [appliedGrads, decoderGrads, encoderGrads, embedGrads, exPipe, vjp, gradZ,
        outputLossOfColl, pipeClasses, vqClasses, vqClassOf, argminIdx, sqDist, vals3, vals1,
        constVec, seedVec, seedEmbeds, seed3, const3, const2, const1, constD, gather, flatten2,
        leftLoss, rightLoss, outputLossL2, meanD, sumD, sumIdx, scaleD, normSqD, vsub, stopGradV,
        stopGrad, List.range_succ]
    have h2 : lossTGrads exPipe = [2, -4] := by
      norm_num [lossTGrads, exPipe, pipeLossT, pipeClasses, vqClasses, vqClassOf, argminIdx,
        sqDist, vals3, vals1, constVec, seedVec, seedEmbeds, const3, const2, const1, constD,
        gather, flatten2, leftLoss, rightLoss, outputLossL2, meanD, sumD, scaleD, normSqD,
        vsub, stopGradV, stopGrad, List.range_succ]
    rw [h1, h2]
    simp

/-- C3 counterexample: on the concrete graph `exPipe` (identity decoder,
codebook entry 0, input pixel 1), the gradient of `output_loss` with
respect to the codebook component `(0, 0)` is `-2`, not zero: no
`tf.stop_gradient` separates `collected_embeds` from the decoder, so the
claim that the gradient of `output_loss` with respect to the codebook
variable is exactly zero is false on the code. -/
theorem vq_output_loss_codebook_grad_nonzero :
    outputLossGradEmbed exPipe 0 0 ≠ 0 := by
  have h : outputLossGradEmbed exPipe 0 0 = -2 := by
    norm_num [outputLossGradEmbed, outputLossOfColl, exPipe, pipeClasses, vqClasses, vqClassOf,
      argminIdx, sqDist, vals3, vals1, constVec, seedVec, seedEmbeds, const3, const2, const1,
      constD, gather, flatten2, outputLossL2, meanD, sumD, scaleD, stopGrad]
  rw [h]
  norm_num

/-- C3 amended: the gradient of `left_loss` with respect to every encoder
and decoder parameter is exactly zero (any parameter the codebook does not
depend on gives derivative-free collected embeddings), and the gradient of
`right_loss` with respect to the codebook variable is exactly zero (the
predicted embeddings do not depend on the codebook); the gradient of
`output_loss` with respect to the codebook is however not zero in general
— see the counterexample — and the codebook is isolated from the
reconstruction loss only because the applied codebook update is computed
from `left_loss` alone. -/
theorem vq_gradient_isolation_amended :
    (∀ pred coll : List (List (List D)),
      (∀ r ∈ coll, ∀ v ∈ r, ∀ x ∈ v, x.der = 0) → (leftLoss pred coll).der = 0)
      ∧ (∀ pred coll : List (List (List D)),
        (∀ r ∈ pred, ∀ v ∈ r, ∀ x ∈ v, x.der = 0) → (rightLoss pred coll).der = 0)
      ∧ (∀ (P : VQPipe) (i : ℕ),
        (leftLoss (P.encF (seedVec P.encParams i))
          (gather (const2 P.embeds) (pipeClasses P))).der = 0)
      ∧ (∀ P : VQPipe,
        embedGrads P = ((List.range P.embeds.length).map (fun k =>
          (List.range ((P.embeds.getD k []).length)).map (fun c =>
            (leftLoss (P.encF (constVec P.encParams))
              (gather (seedEmbeds P.embeds k c) (pipeClasses P))).der))).flatten) := by
  refine ⟨leftLoss_der_of_constColl, rightLoss_der_of_constPred, ?_, fun _ => rfl⟩
  intro P i
  exact leftLoss_der_of_constColl _ _ (gather_const2_der_zero P.embeds (pipeClasses P))

/-- Witness for C3 amended at concrete inputs: a predicted embedding with a
nonzero derivative against a constant collected embedding gives
`left_loss` derivative 0, and a constant prediction against a seeded
collected embedding gives `right_loss` derivative 0. -/
theorem vq_gradient_isolation_amended_witness :
    (leftLoss [[[D.mk 5 3]]] [[[D.mk 2 0]]]).der = 0
      ∧ (rightLoss [[[D.mk 5 0]]] [[[D.mk 2 7]]]).der = 0 :=
  ⟨vq_gradient_isolation_amended.1 [[[D.mk 5 3]]] [[[D.mk 2 0]]] (by decide),
    vq_gradient_isolation_amended.2.1 [[[D.mk 5 0]]] [[[D.mk 2 7]]] (by decide)⟩

theorem vals1_cons (x : D) (l : List D) : vals1 (x :: l) = x.val :: vals1 l := rfl

theorem vals1_const1 (v : List ℚ) : vals1 (const1 v) = v := by
  have : D.val ∘ constD = id := by
    funext q
    rfl
  simp [vals1, const1, List.map_map, this]

theorem st_combine (u : List D) : ∀ y : List D, u.length = y.length →
    vals1 (vadd (stopGradV (vsub u y)) y) = vals1 u
      ∧ (vadd (stopGradV (vsub u y)) y).map D.der = y.map D.der := by
  induction u with
  | nil =>
    intro y h
    have hy : y = [] := List.length_eq_zero.mp (by simpa using h.symm)
    subst hy
    simp [vals1, vadd, vsub, stopGradV]
  | cons a as ih =>
    intro y h
    cases y with
    | nil => simp at h
    | cons b bs =>
      have hlen : as.length = bs.length := by simpa using h
      obtain ⟨h1, h2⟩ := ih bs hlen
      have e1 : vsub (a :: as) (b :: bs) = (a - b) :: vsub as bs := rfl
      have e2 : stopGradV ((a - b) :: vsub as bs)
          = stopGrad (a - b) :: stopGradV (vsub as bs) := rfl
      have e3 : vadd (stopGrad (a - b) :: stopGradV (vsub as bs)) (b :: bs)
          = (stopGrad (a - b) + b) :: vadd (stopGradV (vsub as bs)) bs := rfl
      have hv : (stopGrad (a - b) + b).val = a.val := by
        simp
      have hd : (stopGrad (a - b) + b).der = b.der := by
        simp
      rw [e1, e2, e3]
      constructor
      · rw [vals1_cons, vals1_cons, hv, h1]
      · rw [List.map_cons, List.map_cons, hd, h2]

/-- C4: with the straight-through flag enabled, the forward value of the
middle-layer sample is the hard one-hot of the arg-max of the relaxed
sample, while its derivative with respect to any graph parameter equals
the derivative of the relaxed sample itself — the
`stop_gradient(hard - relaxed) + relaxed` construction contributes no
gradient of its own. -/
theorem sg_straight_through_value_and_gradient :
    ∀ y : List D,
      vals1 (stHarden y) = oneHot (argmaxIdx (vals1 y)) y.length
        ∧ (stHarden y).map D.der = y.map D.der := by
  intro y
  have hlen : (const1 (oneHot (argmaxIdx (vals1 y)) y.length)).length = y.length := by
    simp [const1, oneHot]
  obtain ⟨h1, h2⟩ := st_combine _ y hlen
  rw [stHarden]
  exact ⟨by rw [h1, vals1_const1], h2⟩

/-- C5: the KL tensor is the closed-form categorical KL whenever `kl_type`
is CATEGORICAL or the straight-through flag is set; the relaxed
single-sample estimator — the posterior relaxed log-density minus the
relaxed uniform-prior log-density, both at the same sampled point — is
used exactly when straight-through is disabled and `kl_type` is RELAXED;
and the scalar `kl_loss` is the mean over the batch of the per-sample sums
over the `num_distributions` KL entries. -/
theorem sg_kl_estimator_selection :
    (∀ (st : Bool) (catKL : List (List ℚ))
        (sgLP prLP : List (List (List ℚ)) → List (List ℚ)) (s : List (List (List ℚ))),
      klDivergenceT st KLType.CATEGORICAL catKL sgLP prLP s = catKL)
      ∧ (∀ (kt : KLType) (catKL : List (List ℚ))
          (sgLP prLP : List (List (List ℚ)) → List (List ℚ)) (s : List (List (List ℚ))),
        klDivergenceT true kt catKL sgLP prLP s = catKL)
      ∧ (∀ (catKL : List (List ℚ))
          (sgLP prLP : List (List (List ℚ)) → List (List ℚ)) (s : List (List (List ℚ))),
        klDivergenceT false KLType.RELAXED catKL sgLP prLP s = matSub (sgLP s) (prLP s))
      ∧ (∀ kl : List (List ℚ), klLossT kl = (kl.map List.sum).sum / kl.length) := by
  refine ⟨?_, ?_, ?_, ?_⟩
  · intro st catKL sgLP prLP s
    simp [klDivergenceT]
  · intro kt catKL sgLP prLP s
    simp [klDivergenceT]
  · intro catKL sgLP prLP s
    simp [klDivergenceT]
  · intro kl
    simp [klLossT, meanQ]

/-- C6: both the (optionally straight-through) relaxed sample and the hard
categorical sample are built unconditionally in the same graph, and the
sample handed to the decoder is selected at execution time by the boolean
`is_training` input: the relaxed branch when true, the hard categorical
branch when false. -/
theorem sg_sample_selected_by_runtime_flag :
    ∀ {ρ : Type} (st : Bool)
      (relaxedSampler : ℚ → List (List (List ℚ)) → ρ → List (List (List ℚ)))
      (catSampler : List (List (List ℚ)) → ρ → List (List (List ℚ)))
      (logits : List (List (List ℚ))) (temp : ℚ) (rand : ρ),
      sgMiddleSelectedSample st relaxedSampler catSampler logits temp rand true
          = flatten2 (sgSampleWithST st (relaxedSampler temp logits rand))
        ∧ sgMiddleSelectedSample st relaxedSampler catSampler logits temp rand false
          = flatten2 (catSampler logits rand) := by
  intro ρ st relaxedSampler catSampler logits temp rand
  exact ⟨rfl, rfl⟩

/-- C7 counterexample: an unrecognized KL-type value passes every
construction-time check of SG_VAE.__init__ (valid loss type, matched list
lengths, arbitrary `kl_type`), so construction does not fail fast; at graph
build time the bogus value merely compares unequal to CATEGORICAL and, with
the straight-through flag unset, silently selects the relaxed KL branch. -/
theorem sg_init_accepts_unrecognized_kl_type :
    sgInitChecks (PyArg.sgLoss SGLossType.L2) [1] [1] [1] [1] [1] [1] PyArg.other = true
      ∧ klBranchIsCategorical PyArg.other false = false :=
  ⟨rfl, rfl⟩

/-- C7 amended: model construction fails fast exactly on mismatched
filter/filter-size/stride list lengths or an unrecognized loss-type value,
for both SG_VAE and VQ_VAE; the `kl_type` argument is not validated at
construction (the checks do not depend on it), and an unrecognized
`kl_type` later reaches the KL branch selection, which then reduces to the
straight-through flag alone. -/
theorem init_fail_fast_amended :
    (∀ (lt : PyArg) (ef efs es df dfs ds : List ℤ) (kl : PyArg),
      sgInitChecks lt ef efs es df dfs ds kl = true
        ↔ (isSGLossType lt = true ∧ ef.length = efs.length ∧ efs.length = es.length
            ∧ df.length = dfs.length ∧ dfs.length = ds.length))
      ∧ (∀ (lt : PyArg) (ef efs es df dfs ds : List ℤ),
        vqInitChecks lt ef efs es df dfs ds = true
          ↔ (isVQLossType lt = true ∧ ef.length = efs.length ∧ efs.length = es.length
              ∧ df.length = dfs.length ∧ dfs.length = ds.length))
      ∧ (∀ st : Bool, klBranchIsCategorical PyArg.other st = st) := by
  refine ⟨?_, ?_, ?_⟩
  · intro lt ef efs es df dfs ds kl
    simp [sgInitChecks, and_assoc]
  · intro lt ef efs es df dfs ds
    simp [vqInitChecks, and_assoc]
  · intro st
    simp [klBranchIsCategorical, pyEqCategorical]

/-- C8: decoding the classes returned by `predict` reproduces exactly the
outputs `predict` returned — both operations run the same deterministic
graph path from the fed classes (gather, reshape, decoder), and the value
fed for `pred_embeds` has no influence on `output_t`. -/
theorem vq_decode_predict_roundtrip :
    ∀ (embeds : List (List ℚ)) (decF : List (List ℚ) → List (List ℚ))
      (latent emb : ℕ) (classes : List (List ℕ)),
      vqDecode embeds decF latent emb (vqPredictOut embeds decF latent emb classes).2
          = (vqPredictOut embeds decF latent emb classes).1
        ∧ (∀ pe1 pe2 : List (List (List ℚ)),
          vqOutputGivenFeeds embeds decF classes pe1
            = vqOutputGivenFeeds embeds decF classes pe2) := by
  intro embeds decF latent emb classes
  exact ⟨rfl, fun _ _ => rfl⟩

/-- C10: with `is_training` fed false (as SG_VAE.encode does), the value
run for `sample_t` is the hard categorical sample, a function of the
logits and the randomness only; two runs that differ only in the value fed
for the temperature placeholder return identical encodings. -/
theorem sg_encode_temperature_independence :
    ∀ {ι ρ : Type} (st : Bool)
      (relaxedSampler : ℚ → List (List (List ℚ)) → ρ → List (List (List ℚ)))
      (catSampler : List (List (List ℚ)) → ρ → List (List (List ℚ)))
      (logitsF : ι → List (List (List ℚ))) (inputs : ι) (rand : ρ) (t1 t2 : ℚ),
      sgEncodeRun st relaxedSampler catSampler logitsF inputs rand t1
          = sgEncodeRun st relaxedSampler catSampler logitsF inputs rand t2
        ∧ sgEncodeRun st relaxedSampler catSampler logitsF inputs rand t1
          = flatten2 (catSampler (logitsF inputs) rand) := by
  intro ι ρ st relaxedSampler catSampler logitsF inputs rand t1 t2
  exact ⟨rfl, rfl⟩

theorem slices_flatten {α : Type} (bs : ℕ) (hbs : 1 ≤ bs) :
    ∀ (n : ℕ) (l : List α), l.length ≤ n →
      ((List.range ((l.length + bs - 1) / bs)).map
        (fun i => (l.drop (i * bs)).take bs)).flatten = l := by
  intro n
  induction n with
  | zero =>
    intro l hl
    have h0 : l = [] := List.length_eq_zero.mp (Nat.le_zero.mp hl)
    subst h0
    have hd : (List.length ([] : List α) + bs - 1) / bs = 0 :=
      Nat.div_eq_of_lt (by simp; omega)
    rw [hd]
    simp
  | succ n ih =>
    intro l hl
    by_cases hsmall : l.length ≤ bs
    · rcases Nat.eq_zero_or_pos l.length with h0 | hpos
      · have h0 : l = [] := List.length_eq_zero.mp h0
        subst h0
        have hd : (List.length ([] : List α) + bs - 1) / bs = 0 :=
          Nat.div_eq_of_lt (by simp; omega)
        rw [hd]
        simp
      · have hceil : (l.length + bs - 1) / bs = 1 :=
          Nat.div_eq_of_lt_le (show 1 * bs ≤ l.length + bs - 1 by omega)
            (show l.length + bs - 1 < 2 * bs by omega)
        rw [hceil, show List.range 1 = [0] from rfl]
        simp only [List.map_cons, List.map_nil, List.flatten_cons, List.flatten_nil,
          List.append_nil, Nat.zero_mul, List.drop_zero]
        exact List.take_of_length_le hsmall
    · push_neg at hsmall
      have hceil : (l.length + bs - 1) / bs = ((l.drop bs).length + bs - 1) / bs + 1 := by
        rw [List.length_drop]
        have h1 : l.length + bs - 1 = ((l.length - bs) + bs - 1) + bs := by omega
        rw [h1, Nat.add_div_right _ (show 0 < bs by omega)]
      rw [hceil, List.range_succ_eq_map, List.map_cons, List.flatten_cons, List.map_map]
      have hcomp : ((fun i => (l.drop (i * bs)).take bs) ∘ (· + 1))
          = (fun i => ((l.drop bs).drop (i * bs)).take bs) := by
        funext i
        have hm : (i + 1) * bs = bs + i * bs := by ring
        simp [Function.comp, List.drop_drop, hm]
      rw [hcomp]
      have hrest := ih (l.drop bs) (by rw [List.length_drop]; omega)
      rw [hrest]
      simp only [Nat.zero_mul, List.drop_zero, List.take_append_drop]

theorem vqRunClasses_eq_map {α : Type} (embeds : List (List ℚ))
    (encOne : α → List (List ℚ)) (xs : List α) :
    vqRunClasses embeds encOne xs
      = xs.map (fun x => (encOne x).map (fun p => vqClassOf embeds p)) := by
  simp [vqRunClasses, vqClasses, List.map_map]

/-- C9 counterexample: on an empty input array, `encode` does not return an
empty list of code rows — the per-step result list is empty and
`np.concatenate` raises, modelled as `none`; so the claim fails for the
empty input array. -/
theorem vq_encode_empty_input_fails :
    vqEncode [[(0 : ℚ)]] (fun x : List (List ℚ) => x) [] 1 = none := rfl

/-- C9 amended: for every nonempty input list and every `batch_size ≥ 1`,
`encode` returns exactly one row of assignment indices per input sample, in
input order (it equals the per-sample classes map), and the result is
independent of the batch size used to split the work; on the empty input
list, `np.concatenate` of the empty result list raises instead. -/
theorem vq_encode_batching_amended :
    ∀ {α : Type} (embeds : List (List ℚ)) (encOne : α → List (List ℚ))
      (inputs : List α) (bs : ℕ), 1 ≤ bs → inputs ≠ [] →
      vqEncode embeds encOne inputs bs
          = some (inputs.map (fun x => (encOne x).map (fun p => vqClassOf embeds p)))
        ∧ (∀ bs2, 1 ≤ bs2 →
          vqEncode embeds encOne inputs bs = vqEncode embeds encOne inputs bs2) := by
  have main : ∀ {α : Type} (embeds : List (List ℚ)) (encOne : α → List (List ℚ))
      (inputs : List α) (bs : ℕ), 1 ≤ bs → inputs ≠ [] →
      vqEncode embeds encOne inputs bs
        = some (inputs.map (fun x => (encOne x).map (fun p => vqClassOf embeds p))) := by
    intro α embeds encOne inputs bs hbs hne
    have hlen : 1 ≤ inputs.length := by
      cases inputs with
      | nil => exact absurd rfl hne
      | cons a as => simp
    have hsteps : (inputs.length + bs - 1) / bs ≠ 0 := by
      have : 1 ≤ (inputs.length + bs - 1) / bs :=
        (Nat.one_le_div_iff (by omega)).mpr (by omega)
      omega
    rw [vqEncode, if_neg hsteps]
    have e1 : (List.range ((inputs.length + bs - 1) / bs)).map (fun i =>
          vqRunClasses embeds encOne ((inputs.drop (i * bs)).take bs))
        = (List.range ((inputs.length + bs - 1) / bs)).map (fun i =>
          ((inputs.drop (i * bs)).take bs).map
            (fun x => (encOne x).map (fun p => vqClassOf embeds p))) :=
      List.map_congr_left (fun i _ => vqRunClasses_eq_map embeds encOne _)
    have e2 : (List.range ((inputs.length + bs - 1) / bs)).map (fun i =>
          ((inputs.drop (i * bs)).take bs).map
            (fun x => (encOne x).map (fun p => vqClassOf embeds p)))
        = ((List.range ((inputs.length + bs - 1) / bs)).map (fun i =>
            (inputs.drop (i * bs)).take bs)).map
          (List.map (fun x => (encOne x).map (fun p => vqClassOf embeds p))) := by
      rw [List.map_map]
      rfl
    have e3 := (List.map_flatten
      (fun x => (encOne x).map (fun p => vqClassOf embeds p))
      ((List.range ((inputs.length + bs - 1) / bs)).map (fun i =>
        (inputs.drop (i * bs)).take bs))).symm
    rw [e1, e2, e3, slices_flatten bs hbs inputs.length inputs (le_refl _)]
  intro α embeds encOne inputs bs hbs hne
  refine ⟨main embeds encOne inputs bs hbs hne, ?_⟩
  intro bs2 hbs2
  rw [main embeds encOne inputs bs hbs hne, main embeds encOne inputs bs2 hbs2 hne]

/-- Witness for C9 amended: one sample with a single code slot, codebook
`[[0]]`, batch size 1; encode returns one row of classes for the one
sample. -/
theorem vq_encode_batching_amended_witness :
    1 ≤ 1 ∧ ([[[(0 : ℚ)]]] : List (List (List ℚ))) ≠ []
      ∧ vqEncode [[(0 : ℚ)]] (fun x : List (List ℚ) => x) [[[(0 : ℚ)]]] 1 = some [[0]] := by
  refine ⟨le_refl 1, by simp, ?_⟩
  have h := (vq_encode_batching_amended [[(0 : ℚ)]] (fun x : List (List ℚ) => x)
    [[[(0 : ℚ)]]] 1 (le_refl 1) (by simp)).1
  simpa [vqClassOf, argminIdx, sqDist] using h

end VAE
